import Mathlib

/-!
Verification development for the repobot filesystem module
(src/filesystem/index.js). Strings of the JavaScript runtime are
embedded as lists of characters; each regular expression used by the
module is embedded as an explicit deterministic decomposition function
that mirrors the backtracking behaviour of the JavaScript engine on the
pattern in question.
-/

namespace Repobot

/-- A JavaScript string, embedded as a list of characters. -/
abbrev Str := List Char

/-- Membership in the JavaScript whitespace class (the class written
backslash-s in a regular expression, which is also exactly the set of
characters removed by String.prototype.trim). -/
def isJsWs (c : Char) : Bool :=
  c == ' ' || c == '\t' || c == '\n' || c == '\r' || c == '\x0b' || c == '\x0c' ||
  c == ' ' || c == ' ' ||
  c == ' ' || c == ' ' || c == ' ' || c == ' ' || c == ' ' ||
  c == ' ' || c == ' ' || c == ' ' || c == ' ' || c == ' ' ||
  c == ' ' || c == ' ' || c == ' ' || c == ' ' || c == ' ' ||
  c == '　' || c == '﻿'

/-- Line terminators: the characters not matched by the regular
expression dot (outside dot-all mode). -/
def isLineTerm (c : Char) : Bool :=
  c == '\n' || c == '\r' || c == ' ' || c == ' '

/-- Characters matched by the regular expression dot. -/
def isDotChar (c : Char) : Bool :=
  !(isLineTerm c)

/-- Embedding of String.prototype.trim. -/
def jsTrim (s : Str) : Str :=
  ((s.dropWhile isJsWs).reverse.dropWhile isJsWs).reverse

/-- Embedding of String.prototype.split with separator a single newline:
every occurrence separates, empty pieces are kept, and the result is
always non-empty. -/
def splitNl : Str → List Str
  | [] => [[]]
  | c :: rest =>
    if c = '\n' then [] :: splitNl rest
    else
      match splitNl rest with
      | [] => [[c]]
      | piece :: pieces => (c :: piece) :: pieces

/-- Embedding of Array.prototype.join with separator a single newline. -/
def joinNl : List Str → Str
  | [] => []
  | [l] => l
  | l :: ls => l ++ '\n' :: joinNl ls

/-- Greedy match of the regular expression tail consisting of one or
more whitespace characters followed by a captured non-empty run of
dot characters, anchored at the end of the line.  Returns the
whitespace part and the captured part.  When the remaining text is
whitespace only, the greedy engine backtracks one character, so the
capture is the final character provided it is matched by dot. -/
def splitTail (s : Str) : Option (Str × Str) :=
  let w := s.takeWhile isJsWs
  let r := s.dropWhile isJsWs
  if w = [] then none
  else if r = [] then
    match s.reverse with
    | [] => none
    | last :: front =>
      if front ≠ [] ∧ isDotChar last then some (front.reverse, [last]) else none
  else if r.all isDotChar then some (w, r) else none

/-- Embedding of the section-header regular expression of parseTodoFile:
one or more hash marks, whitespace, then a captured remainder.  Returns
the captured group. -/
def headerCapture (l : Str) : Option Str :=
  let hashes := l.takeWhile (fun c => c = '#')
  if hashes = [] then none
  else
    match splitTail (l.dropWhile (fun c => c = '#')) with
    | some (_, cap) => some cap
    | none => none

/-- Embedding of the header regular expression of parseMarkdownFile,
which additionally captures the run of hash marks; returns the header
level (number of hash marks) and the captured title text. -/
def mdHeaderMatch (l : Str) : Option (Nat × Str) :=
  let hashes := l.takeWhile (fun c => c = '#')
  if hashes = [] then none
  else
    match splitTail (l.dropWhile (fun c => c = '#')) with
    | some (_, cap) => some (hashes.length, cap)
    | none => none

/-- Shape of a line matched by the checklist-item regular expression of
parseTodoFile: a bullet, whitespace, an opening bracket, the checkbox
marker, a closing bracket, whitespace, and the captured description. -/
structure TaskShape where
  bullet : Char
  ws1 : Str
  box : Char
  ws2 : Str
  rest : Str
deriving DecidableEq

/-- Embedding of the checklist-item regular expression of parseTodoFile:
a bullet character, one or more whitespace characters, a bracketed
checkbox whose marker is a space or the letter x, one or more whitespace
characters, and a captured non-empty remainder, anchored at both ends. -/
def taskDecompose (l : Str) : Option TaskShape :=
  match l with
  | [] => none
  | b :: t =>
    if b = '-' ∨ b = '*' then
      let w1 := t.takeWhile isJsWs
      match t.dropWhile isJsWs with
      | lb :: m :: rb :: t2 =>
        if lb = '[' ∧ rb = ']' ∧ (m = ' ' ∨ m = 'x') ∧ w1 ≠ [] then
          match splitTail t2 with
          | some (w2, cap) => some ⟨b, w1, m, w2, cap⟩
          | none => none
        else none
      | _ => none
    else none

/-- Embedding of the rewrite regular expression of updateTodoStatus,
which matches the same lines as the checklist-item expression but
captures the text before the checkbox marker as the first group and the
text after it as the second group. -/
def updateTodoMatch (l : Str) : Option (Str × Str) :=
  match l with
  | [] => none
  | b :: t =>
    if b = '-' ∨ b = '*' then
      let w1 := t.takeWhile isJsWs
      match t.dropWhile isJsWs with
      | lb :: m :: rb :: t2 =>
        if lb = '[' ∧ rb = ']' ∧ (m = ' ' ∨ m = 'x') ∧ w1 ≠ [] then
          match splitTail t2 with
          | some (w2, cap) => some (b :: (w1 ++ [lb]), rb :: (w2 ++ cap))
          | none => none
        else none
      | _ => none
    else none

/-- A parsed checklist task, as produced by parseTodoFile. -/
structure TodoTask where
  description : Str
  completed : Bool
  sectionName : Str
deriving DecidableEq

/-- The literal default section text used by parseTodoFile. -/
def uncategorized : Str :=
  ("Uncategorized").data

/-- Iteration of a JavaScript Set build: keep each value not already
seen, tracking the set of seen values. -/
def uniqueInOrderGo : List Str → List Str → List Str
  | [], _ => []
  | x :: xs, seen =>
    if x ∈ seen then uniqueInOrderGo xs seen
    else x :: uniqueInOrderGo xs (x :: seen)

/-- First-seen-order deduplication, the embedding of building a
JavaScript Set from an array and spreading it back into an array. -/
def uniqueInOrder (l : List Str) : List Str :=
  uniqueInOrderGo l []

/-- Result record of parseTodoFile. -/
structure TodoInfo where
  tasks : List TodoTask
  sections : List Str
deriving DecidableEq

/-- The line loop of parseTodoFile from src/filesystem/index.js: header
lines update the current section, checklist-item lines append a task
whose section is the current section or the Uncategorized default when
the current section is the empty (falsy) string. -/
def parseTodoLoop : List Str → Str → List TodoTask
  | [], _ => []
  | line :: rest, currentSection =>
    match headerCapture line with
    | some cap => parseTodoLoop rest (jsTrim cap)
    | none =>
      match taskDecompose line with
      | some sh =>
        { description := jsTrim sh.rest
          completed := sh.box == 'x'
          sectionName := if currentSection = [] then uncategorized else currentSection } ::
          parseTodoLoop rest currentSection
      | none => parseTodoLoop rest currentSection

/-- Embedding of parseTodoFile from src/filesystem/index.js. -/
def parseTodoFile (content : Str) : TodoInfo :=
  let tasks := parseTodoLoop (splitNl content) []
  { tasks := tasks
    sections := uniqueInOrder (tasks.map (·.sectionName)) }

/-- A parsed markdown section, as produced by parseMarkdownFile. -/
structure DocSection where
  title : Str
  level : Nat
  content : List Str
deriving DecidableEq

/-- Result record of parseMarkdownFile. -/
structure DocInfo where
  sections : List DocSection
  title : Str
  content : Str
deriving DecidableEq

/-- The line loop of parseMarkdownFile from src/filesystem/index.js: a
header emits the accumulated section when that section has a truthy
(non-empty) title and at least one content line, then starts a new
section; non-blank non-header lines accumulate; the final section is
emitted under the same condition. -/
def parseMdLoop : List Str → DocSection → List DocSection
  | [], cur => if cur.title ≠ [] ∧ cur.content ≠ [] then [cur] else []
  | line :: rest, cur =>
    match mdHeaderMatch line with
    | some (lvl, cap) =>
      (if cur.title ≠ [] ∧ cur.content ≠ [] then [cur] else []) ++
        parseMdLoop rest { title := jsTrim cap, level := lvl, content := [] }
    | none =>
      if jsTrim line ≠ [] then
        parseMdLoop rest { cur with content := cur.content ++ [line] }
      else parseMdLoop rest cur

/-- Embedding of parseMarkdownFile from src/filesystem/index.js. -/
def parseMarkdownFile (content : Str) : DocInfo :=
  let sections := parseMdLoop (splitNl content) { title := [], level := 0, content := [] }
  { sections := sections
    title := match sections with | [] => [] | s :: _ => s.title
    content := content }

/-- Embedding of String.prototype.includes: the pattern occurs as a
contiguous substring. -/
def jsIncludes (s pat : Str) : Bool :=
  match s with
  | [] => pat.isEmpty
  | _ :: t => pat.isPrefixOf s || jsIncludes t pat

/-- The per-line rewrite of updateTodoStatus from src/filesystem/index.js:
a line matched by the rewrite regular expression and containing the task
description as a literal substring is rebuilt from its two captured
groups around the new checkbox marker; every other line passes through. -/
def updateTodoLine (taskDescription : Str) (completed : Bool) (line : Str) : Str :=
  match updateTodoMatch line with
  | some (g1, g2) =>
    if jsIncludes line taskDescription then
      g1 ++ (if completed then 'x' else ' ') :: g2
    else line
  | none => line

/-- The content transformation of updateTodoStatus: split on newlines,
rewrite each line, join with newlines. -/
def updateTodoContent (taskDescription : Str) (completed : Bool) (content : Str) : Str :=
  joinNl ((splitNl content).map (updateTodoLine taskDescription completed))

/-- Test for a line whose first character is a hash mark, the embedding
of String.prototype.startsWith applied to a one-character argument. -/
def startsWithHash : Str → Bool
  | '#' :: _ => true
  | _ => false

/-- The rule filter of initIgnoreFilter from src/filesystem/index.js: the
text blob of an ignore file is split into lines and a line is kept as a
pattern entry exactly when its trim is truthy (non-empty) and the line
does not start with a hash mark. -/
def initIgnoreRules (blob : Str) : List Str :=
  (splitNl blob).filter (fun rule => !(jsTrim rule).isEmpty && !(startsWithHash rule))

/-- The line loop of the duplicate draft of parseTodoFile found in the
unnamed filesystem module draft of this repository (identical logic). -/
def parseTodoLoopDraft : List Str → Str → List TodoTask
  | [], _ => []
  | line :: rest, currentSection =>
    match headerCapture line with
    | some cap => parseTodoLoopDraft rest (jsTrim cap)
    | none =>
      match taskDecompose line with
      | some sh =>
        { description := jsTrim sh.rest
          completed := sh.box == 'x'
          sectionName := if currentSection = [] then uncategorized else currentSection } ::
          parseTodoLoopDraft rest currentSection
      | none => parseTodoLoopDraft rest currentSection

/-- Embedding of the duplicate draft of parseTodoFile. -/
def parseTodoFileDraft (content : Str) : TodoInfo :=
  let tasks := parseTodoLoopDraft (splitNl content) []
  { tasks := tasks
    sections := uniqueInOrder (tasks.map (·.sectionName)) }

/-- Error kind of the storage layer.  The specification groups a missing
path and an ignored path under the single kind NotFoundError. -/
inductive FsError where
  | notFoundError
deriving DecidableEq

/-- Lookup in the modelled file store. -/
def lookupStore : List (Str × Str) → Str → Option Str
  | [], _ => none
  | (q, c) :: rest, p => if q = p then some c else lookupStore rest p

/-- Overwrite or insert in the modelled file store. -/
def writeStore : List (Str × Str) → Str → Str → List (Str × Str)
  | [], p, c => [(p, c)]
  | (q, c0) :: rest, p, c =>
    if q = p then (q, c) :: rest else (q, c0) :: writeStore rest p c

/-- Embedding of the readFile method: it fails when the path is ignored
and, per the storage collaborator contract of the specification, reading
an absent path fails with NotFoundError. -/
def readFileFS (ign : Str → Bool) (fs : List (Str × Str)) (p : Str) : Except FsError Str :=
  if ign p then .error .notFoundError
  else
    match lookupStore fs p with
    | some c => .ok c
    | none => .error .notFoundError

/-- Embedding of the writeFile method: it fails when the path is ignored
and otherwise stores the new content. -/
def writeFileFS (ign : Str → Bool) (fs : List (Str × Str)) (p c : Str) :
    Except FsError (List (Str × Str)) :=
  if ign p then .error .notFoundError else .ok (writeStore fs p c)

/-- Embedding of updateTodoStatus from src/filesystem/index.js: check the
ignore filter, read the file, rewrite its lines, write the result back,
and return success; every error propagates and leaves the store
untouched. -/
def updateTodoStatus (ign : Str → Bool) (fs : List (Str × Str))
    (filePath taskDescription : Str) (completed : Bool) :
    Except FsError Bool × List (Str × Str) :=
  if ign filePath then (.error .notFoundError, fs)
  else
    match readFileFS ign fs filePath with
    | .error e => (.error e, fs)
    | .ok content =>
      match writeFileFS ign fs filePath (updateTodoContent taskDescription completed content) with
      | .error e => (.error e, fs)
      | .ok fs2 => (.ok true, fs2)

/-- The trimmed captured text of the nearest preceding header line of a
list of preceding lines, or the empty string when no preceding line is a
header line.  Stated from the specification wording about section
assignment, for comparison with parseTodoFile. -/
def curSectionAfter (lines : List Str) : Str :=
  lines.foldl (fun cur l => match headerCapture l with | some cap => jsTrim cap | none => cur) []

/-- Specification-side description of the task list: each checklist-item
line yields a task whose section is the trimmed captured text of the
nearest preceding header line when that text is non-empty, and the
Uncategorized default otherwise.  The first argument accumulates the
already-processed preceding lines. -/
def nearestHeaderTasks : List Str → List Str → List TodoTask
  | _, [] => []
  | pre, l :: ls =>
    (match taskDecompose l with
     | some sh =>
       [{ description := jsTrim sh.rest
          completed := sh.box == 'x'
          sectionName :=
            if curSectionAfter pre = [] then uncategorized else curSectionAfter pre }]
     | none => []) ++ nearestHeaderTasks (pre ++ [l]) ls

/-- Specification-side first-seen-order deduplication, written as a left
fold that appends each value not seen before. -/
def distinctFirstSeen (l : List Str) : List Str :=
  l.foldl (fun acc x => if x ∈ acc then acc else acc ++ [x]) []

/-- Splitting on newlines never yields the empty list of pieces. -/
theorem splitNl_ne_nil (s : Str) : splitNl s ≠ [] := by
  cases s with
  | nil => simp [splitNl]
  | cons c rest =>
    simp only [splitNl]
    split
    · simp
    · split <;> simp

/-- No piece produced by splitting on newlines contains a newline. -/
theorem nl_not_mem_splitNl (s : Str) : ∀ l ∈ splitNl s, '\n' ∉ l := by
  induction s with
  | nil =>
    intro l hl
    simp [splitNl] at hl
    simp [hl]
  | cons c rest ih =>
    intro l hl
    simp only [splitNl] at hl
    by_cases hc : c = '\n'
    · rw [if_pos hc] at hl
      rcases List.mem_cons.mp hl with h | h
      · simp [h]
      · exact ih l h
    · rw [if_neg hc] at hl
      rcases hsp : splitNl rest with _ | ⟨piece, pieces⟩
      · rw [hsp] at hl
        simp at hl
        subst hl
        simp only [List.mem_singleton]
        exact fun he => hc he.symm
      · rw [hsp] at hl
        rcases List.mem_cons.mp hl with h | h
        · subst h
          intro hmem
          rcases List.mem_cons.mp hmem with h2 | h2
          · exact hc h2.symm
          · exact ih piece (by rw [hsp]; exact List.mem_cons_self _ _) h2
        · exact ih l (by rw [hsp]; exact List.mem_cons_of_mem _ h)

/-- Joining a list whose tail is non-empty inserts a newline after the
head piece. -/
theorem joinNl_cons_of_ne_nil (l : Str) (ls : List Str) (h : ls ≠ []) :
    joinNl (l :: ls) = l ++ '\n' :: joinNl ls := by
  cases ls with
  | nil => exact absurd rfl h
  | cons a as => simp [joinNl]

/-- Joining the pieces of a split restores the original string. -/
theorem joinNl_splitNl (s : Str) : joinNl (splitNl s) = s := by
  induction s with
  | nil => simp [splitNl, joinNl]
  | cons c rest ih =>
    simp only [splitNl]
    by_cases hc : c = '\n'
    · rw [if_pos hc]
      rw [joinNl_cons_of_ne_nil _ _ (splitNl_ne_nil rest)]
      simp [ih, hc]
    · rw [if_neg hc]
      rcases hsp : splitNl rest with _ | ⟨piece, pieces⟩
      · exact absurd hsp (splitNl_ne_nil rest)
      · rw [hsp] at ih
        cases pieces with
        | nil =>
          simp [joinNl] at ih ⊢
          exact ih
        | cons p2 ps =>
          rw [joinNl_cons_of_ne_nil _ _ (by simp)] at ih ⊢
          simp only [List.cons_append]
          rw [ih]

/-- Splitting a newline-free string yields that string as the only
piece. -/
theorem splitNl_of_no_nl (l : Str) (h : '\n' ∉ l) : splitNl l = [l] := by
  induction l with
  | nil => simp [splitNl]
  | cons c t ih =>
    have hc : c ≠ '\n' := by
      intro he
      exact h (by simp [he])
    have ht : '\n' ∉ t := by
      intro he
      exact h (List.mem_cons_of_mem _ he)
    simp only [splitNl, if_neg hc, ih ht]

/-- Splitting a newline-free piece glued before a newline peels off that
piece. -/
theorem splitNl_append_nl (l r : Str) (h : '\n' ∉ l) :
    splitNl (l ++ '\n' :: r) = l :: splitNl r := by
  induction l with
  | nil => simp [splitNl]
  | cons c t ih =>
    have hc : c ≠ '\n' := by
      intro he
      exact h (by simp [he])
    have ht : '\n' ∉ t := by
      intro he
      exact h (List.mem_cons_of_mem _ he)
    simp only [List.cons_append, splitNl, if_neg hc, List.append_eq]
    rw [ih ht]

/-- Splitting after joining newline-free pieces restores the pieces. -/
theorem splitNl_joinNl (ls : List Str) (hne : ls ≠ []) (h : ∀ l ∈ ls, '\n' ∉ l) :
    splitNl (joinNl ls) = ls := by
  induction ls with
  | nil => exact absurd rfl hne
  | cons l rest ih =>
    cases rest with
    | nil =>
      simp only [joinNl]
      exact splitNl_of_no_nl l (h l (by simp))
    | cons r rs =>
      rw [joinNl_cons_of_ne_nil _ _ (by simp)]
      rw [splitNl_append_nl _ _ (h l (by simp))]
      rw [ih (by simp) (fun x hx => h x (List.mem_cons_of_mem _ hx))]

/-- A successful tail match splits the text into its whitespace part and
its captured part. -/
theorem splitTail_spec (s w c : Str) (h : splitTail s = some (w, c)) :
    w ++ c = s ∧ w ≠ [] ∧ (∀ x ∈ w, isJsWs x = true) := by
  by_cases hw : s.takeWhile isJsWs = []
  · simp [splitTail, hw] at h
  · by_cases hr : s.dropWhile isJsWs = []
    · have hall : ∀ x ∈ s, isJsWs x = true := List.dropWhile_eq_nil_iff.mp hr
      rcases hrev : s.reverse with _ | ⟨last, front⟩
      · simp [splitTail, hw, hr, hrev] at h
      · simp only [splitTail, hw, hr, hrev, if_neg, if_pos, if_true, if_false] at h
        split at h
        · rename_i hcond
          simp only [Option.some.injEq, Prod.mk.injEq] at h
          obtain ⟨hw2, hc2⟩ := h
          subst hw2
          subst hc2
          refine ⟨?_, ?_, ?_⟩
          · have hs : s = (last :: front).reverse := by rw [← hrev, List.reverse_reverse]
            rw [hs, List.reverse_cons]
          · simpa using hcond.1
          · intro x hx
            apply hall
            have hxs : x ∈ s.reverse := by
              rw [hrev]
              exact List.mem_cons_of_mem _ (List.mem_reverse.mp hx)
            exact List.mem_reverse.mp hxs
        · simp at h
    · by_cases hd : (s.dropWhile isJsWs).all isDotChar
      · simp only [splitTail, if_neg hw, if_neg hr, if_pos hd, Option.some.injEq,
          Prod.mk.injEq] at h
        obtain ⟨hw2, hc2⟩ := h
        subst hw2
        subst hc2
        exact ⟨List.takeWhile_append_dropWhile isJsWs s, hw,
          fun x hx => List.mem_takeWhile_imp hx⟩
      · simp [splitTail, hw, hr, hd] at h

/-- Structure of a line matched by the checklist-item expression: the
line decomposes into bullet, whitespace, bracketed marker, whitespace
and description, with the side conditions imposed by the expression. -/
theorem taskDecompose_spec (l : Str) (sh : TaskShape) (h : taskDecompose l = some sh) :
    l = sh.bullet :: (sh.ws1 ++ '[' :: sh.box :: ']' :: (sh.ws2 ++ sh.rest)) ∧
    (sh.bullet = '-' ∨ sh.bullet = '*') ∧ sh.ws1 ≠ [] ∧ (∀ x ∈ sh.ws1, isJsWs x = true) ∧
    (sh.box = ' ' ∨ sh.box = 'x') ∧ splitTail (sh.ws2 ++ sh.rest) = some (sh.ws2, sh.rest) := by
  cases l with
  | nil => simp [taskDecompose] at h
  | cons b t =>
    by_cases hb : b = '-' ∨ b = '*'
    · rcases hdrop : t.dropWhile isJsWs with _ | ⟨lb, _ | ⟨m, _ | ⟨rb, t2⟩⟩⟩
      · simp [taskDecompose, if_pos hb, hdrop] at h
      · simp [taskDecompose, if_pos hb, hdrop] at h
      · simp [taskDecompose, if_pos hb, hdrop] at h
      · simp only [taskDecompose, if_pos hb, hdrop] at h
        by_cases hcond : lb = '[' ∧ rb = ']' ∧ (m = ' ' ∨ m = 'x') ∧ t.takeWhile isJsWs ≠ []
        · rw [if_pos hcond] at h
          obtain ⟨hlb, hrb, hm, hw1⟩ := hcond
          rcases hst : splitTail t2 with _ | ⟨w2, cap⟩ <;> rw [hst] at h
          · exact absurd h (by simp)
          · simp only [Option.some.injEq] at h
            subst h
            obtain ⟨happ, _, _⟩ := splitTail_spec t2 w2 cap hst
            subst hlb
            subst hrb
            refine ⟨?_, hb, hw1, fun x hx => List.mem_takeWhile_imp hx, hm, ?_⟩
            · show b :: t = b :: (t.takeWhile isJsWs ++ '[' :: m :: ']' :: (w2 ++ cap))
              conv_lhs => rw [← List.takeWhile_append_dropWhile isJsWs t]
              rw [hdrop, ← happ]
            · show splitTail (w2 ++ cap) = some (w2, cap)
              rw [happ]
              exact hst
        · rw [if_neg hcond] at h
          exact absurd h (by simp)
    · simp [taskDecompose, hb] at h

/-- The rewrite expression of updateTodoStatus matches exactly the lines
matched by the checklist-item expression, and its two captured groups
are the text before and after the checkbox marker. -/
theorem updateTodoMatch_eq (l : Str) :
    updateTodoMatch l = (taskDecompose l).map
      (fun sh => (sh.bullet :: (sh.ws1 ++ ['[']), ']' :: (sh.ws2 ++ sh.rest))) := by
  cases l with
  | nil => rfl
  | cons b t =>
    by_cases hb : b = '-' ∨ b = '*'
    · rcases hdrop : t.dropWhile isJsWs with _ | ⟨lb, _ | ⟨m, _ | ⟨rb, t2⟩⟩⟩
      · simp [updateTodoMatch, taskDecompose, if_pos hb, hdrop]
      · simp [updateTodoMatch, taskDecompose, if_pos hb, hdrop]
      · simp [updateTodoMatch, taskDecompose, if_pos hb, hdrop]
      · simp only [updateTodoMatch, taskDecompose, if_pos hb, hdrop]
        by_cases hcond : lb = '[' ∧ rb = ']' ∧ (m = ' ' ∨ m = 'x') ∧ t.takeWhile isJsWs ≠ []
        · simp only [if_pos hcond]
          obtain ⟨hlb, hrb, hm, hw1⟩ := hcond
          subst hlb
          subst hrb
          rcases hst : splitTail t2 with _ | ⟨w2, cap⟩ <;> simp [hst]
        · simp only [if_neg hcond]
          simp
    · simp [updateTodoMatch, taskDecompose, hb]

/-- A line matched by the checklist-item expression is not a header
line. -/
theorem headerCapture_of_task (l : Str) (sh : TaskShape) (h : taskDecompose l = some sh) :
    headerCapture l = none := by
  obtain ⟨hl, hb, _⟩ := taskDecompose_spec l sh h
  subst hl
  rcases hb with hb | hb <;> simp [headerCapture, hb]

/-- A header line is not matched by the checklist-item expression. -/
theorem taskDecompose_of_header (l cap : Str) (h : headerCapture l = some cap) :
    taskDecompose l = none := by
  cases l with
  | nil => simp [taskDecompose]
  | cons c t =>
    by_cases hc : c = '#'
    · subst hc
      simp [taskDecompose]
    · exfalso
      simp [headerCapture, hc] at h

/-- A line not matched by the checklist-item expression passes through
the rewrite unchanged. -/
theorem updateTodoLine_of_none (d : Str) (comp : Bool) (l : Str)
    (h : taskDecompose l = none) : updateTodoLine d comp l = l := by
  simp [updateTodoLine, updateTodoMatch_eq, h]

/-- A line not containing the description passes through the rewrite
unchanged. -/
theorem updateTodoLine_of_not_inc (d : Str) (comp : Bool) (l : Str)
    (h : jsIncludes l d = false) : updateTodoLine d comp l = l := by
  rcases hm : updateTodoMatch l with _ | ⟨g1, g2⟩ <;> simp [updateTodoLine, hm, h]

/-- A matched line containing the description is rebuilt around the new
checkbox marker. -/
theorem updateTodoLine_of_some (d : Str) (comp : Bool) (l : Str) (sh : TaskShape)
    (h : taskDecompose l = some sh) (hinc : jsIncludes l d = true) :
    updateTodoLine d comp l =
      sh.bullet :: (sh.ws1 ++ '[' :: (if comp then 'x' else ' ') :: ']' :: (sh.ws2 ++ sh.rest)) := by
  simp [updateTodoLine, updateTodoMatch_eq, h, hinc]

/-- Rebuilding a matched line around a legal checkbox marker parses back
to the same shape with the new marker. -/
theorem taskDecompose_rebuild (l : Str) (sh : TaskShape) (h : taskDecompose l = some sh)
    (cb : Char) (hcb : cb = ' ' ∨ cb = 'x') :
    taskDecompose (sh.bullet :: (sh.ws1 ++ '[' :: cb :: ']' :: (sh.ws2 ++ sh.rest))) =
      some { sh with box := cb } := by
  obtain ⟨_, hb, hw1ne, hw1all, _, hst⟩ := taskDecompose_spec l sh h
  have htake : (sh.ws1 ++ '[' :: cb :: ']' :: (sh.ws2 ++ sh.rest)).takeWhile isJsWs = sh.ws1 := by
    rw [List.takeWhile_append_of_pos hw1all, List.takeWhile_cons_of_neg (by decide),
      List.append_nil]
  have hdropw : (sh.ws1 ++ '[' :: cb :: ']' :: (sh.ws2 ++ sh.rest)).dropWhile isJsWs =
      '[' :: cb :: ']' :: (sh.ws2 ++ sh.rest) := by
    rw [List.dropWhile_append_of_pos hw1all, List.dropWhile_cons_of_neg (by decide)]
  simp only [taskDecompose, if_pos hb, hdropw, htake]
  rw [if_pos ⟨trivial, trivial, hcb, hw1ne⟩, hst]

/-- Setting the element one past the front block replaces the second
element after that block. -/
theorem set_after (w : Str) (a b : Char) (r : Str) (c : Char) :
    (w ++ a :: b :: r).set (w.length + 1) c = w ++ a :: c :: r := by
  induction w with
  | nil => rfl
  | cons x xs ih =>
    simp only [List.cons_append, List.length_cons]
    rw [show xs.length + 1 + 1 = (xs.length + 1) + 1 from rfl, List.set_cons_succ, ih]

/-- Setting position two past the leading whitespace of a checklist line
replaces exactly the checkbox marker. -/
theorem set_checkbox (bu : Char) (w : Str) (bx : Char) (r : Str) (c : Char) :
    (bu :: (w ++ '[' :: bx :: r)).set (w.length + 2) c = bu :: (w ++ '[' :: c :: r) := by
  rw [show w.length + 2 = (w.length + 1) + 1 from rfl, List.set_cons_succ, set_after]

/-- The rewrite of a matched line containing the description is exactly
an update of the single checkbox-marker position. -/
theorem updateTodoLine_set (d : Str) (comp : Bool) (l : Str) (sh : TaskShape)
    (h : taskDecompose l = some sh) (hinc : jsIncludes l d = true) :
    updateTodoLine d comp l = l.set (sh.ws1.length + 2) (if comp then 'x' else ' ') := by
  obtain ⟨hl, _, _, _, _, _⟩ := taskDecompose_spec l sh h
  rw [updateTodoLine_of_some d comp l sh h hinc]
  conv_rhs => rw [hl]
  rw [set_checkbox]

/-- The per-line rewrite is idempotent. -/
theorem updateTodoLine_idem (d : Str) (comp : Bool) (l : Str) :
    updateTodoLine d comp (updateTodoLine d comp l) = updateTodoLine d comp l := by
  rcases h : taskDecompose l with _ | sh
  · simp only [updateTodoLine_of_none d comp l h]
  · cases hinc : jsIncludes l d with
    | false => simp only [updateTodoLine_of_not_inc d comp l hinc]
    | true =>
      have hcb : (if comp then 'x' else ' ') = ' ' ∨ (if comp then 'x' else ' ') = 'x' := by
        cases comp <;> simp
      have h1 := updateTodoLine_of_some d comp l sh h hinc
      have h2 := taskDecompose_rebuild l sh h (if comp then 'x' else ' ') hcb
      rw [h1]
      cases hinc2 : jsIncludes
          (sh.bullet ::
            (sh.ws1 ++ '[' :: (if comp then 'x' else ' ') :: ']' :: (sh.ws2 ++ sh.rest))) d with
      | false => rw [updateTodoLine_of_not_inc d comp _ hinc2]
      | true => rw [updateTodoLine_of_some d comp _ _ h2 hinc2]

/-- The per-line rewrite never introduces a newline. -/
theorem updateTodoLine_no_nl (d : Str) (comp : Bool) (l : Str) (h : '\n' ∉ l) :
    '\n' ∉ updateTodoLine d comp l := by
  rcases ht : taskDecompose l with _ | sh
  · rw [updateTodoLine_of_none d comp l ht]
    exact h
  · cases hinc : jsIncludes l d with
    | false =>
      rw [updateTodoLine_of_not_inc d comp l hinc]
      exact h
    | true =>
      rw [updateTodoLine_set d comp l sh ht hinc]
      intro hmem
      rcases List.mem_or_eq_of_mem_set hmem with h1 | h1
      · exact h h1
      · cases comp <;> simp at h1

/-- Splitting the rewritten content recovers the rewritten lines. -/
theorem splitNl_updateTodoContent (d : Str) (comp : Bool) (content : Str) :
    splitNl (updateTodoContent d comp content) =
      (splitNl content).map (updateTodoLine d comp) := by
  rw [updateTodoContent]
  apply splitNl_joinNl
  · intro hmap
    exact splitNl_ne_nil content (by simpa using hmap)
  · intro l hl
    obtain ⟨l0, hl0, rfl⟩ := List.mem_map.mp hl
    exact updateTodoLine_no_nl d comp l0 (nl_not_mem_splitNl content l0 hl0)

/-- A content blob none of whose lines is a matching checklist line
containing the description passes through the rewrite unchanged. -/
theorem updateTodoContent_noop (d : Str) (comp : Bool) (content : Str)
    (h : ∀ l ∈ splitNl content, taskDecompose l = none ∨ jsIncludes l d = false) :
    updateTodoContent d comp content = content := by
  simp only [updateTodoContent]
  have h2 : ∀ l ∈ splitNl content, updateTodoLine d comp l = l := by
    intro l hl
    rcases h l hl with h1 | h1
    · exact updateTodoLine_of_none d comp l h1
    · exact updateTodoLine_of_not_inc d comp l h1
  calc joinNl ((splitNl content).map (updateTodoLine d comp))
      = joinNl (splitNl content) := by
        rw [List.map_congr_left h2, List.map_id']
    _ = content := joinNl_splitNl content

/-- Looking up a path immediately after writing it yields the written
content. -/
theorem lookupStore_writeStore (fs : List (Str × Str)) (p c : Str) :
    lookupStore (writeStore fs p c) p = some c := by
  induction fs with
  | nil => simp [writeStore, lookupStore]
  | cons e rest ih =>
    obtain ⟨q, c0⟩ := e
    by_cases hq : q = p
    · simp [writeStore, lookupStore, hq]
    · simp [writeStore, lookupStore, hq, ih]

/-- The checklist line loop and its duplicate draft agree line by
line. -/
theorem parseTodoLoop_eq_draft (ls : List Str) (cur : Str) :
    parseTodoLoop ls cur = parseTodoLoopDraft ls cur := by
  induction ls generalizing cur with
  | nil => rfl
  | cons l rest ih =>
    rcases hh : headerCapture l with _ | cap <;>
      rcases ht : taskDecompose l with _ | sh <;>
        simp [parseTodoLoop, parseTodoLoopDraft, hh, ht, ih]

/-- Unfolding the checklist loop at a checklist-item line. -/
theorem parseTodoLoop_cons_task (line : Str) (rest : List Str) (cur : Str) (sh : TaskShape)
    (h : taskDecompose line = some sh) :
    parseTodoLoop (line :: rest) cur =
      { description := jsTrim sh.rest
        completed := sh.box == 'x'
        sectionName := if cur = [] then uncategorized else cur } :: parseTodoLoop rest cur := by
  simp [parseTodoLoop, headerCapture_of_task line sh h, h]

/-- Effect of one more preceding line on the nearest-header fold. -/
theorem curSectionAfter_append (pre : List Str) (l : Str) :
    curSectionAfter (pre ++ [l]) =
      (match headerCapture l with | some cap => jsTrim cap | none => curSectionAfter pre) := by
  simp [curSectionAfter, List.foldl_append]

/-- The checklist loop computes the nearest-preceding-header task list. -/
theorem parseTodoLoop_eq_nearest (ls : List Str) : ∀ pre : List Str,
    parseTodoLoop ls (curSectionAfter pre) = nearestHeaderTasks pre ls := by
  induction ls with
  | nil => intro pre; rfl
  | cons l rest ih =>
    intro pre
    rcases hh : headerCapture l with _ | cap
    · have hpre : curSectionAfter (pre ++ [l]) = curSectionAfter pre := by
        rw [curSectionAfter_append, hh]
      rcases ht : taskDecompose l with _ | sh
      · simp only [parseTodoLoop, hh, ht, nearestHeaderTasks, List.nil_append]
        have ih2 := ih (pre ++ [l])
        rw [hpre] at ih2
        exact ih2
      · simp only [parseTodoLoop, hh, ht, nearestHeaderTasks, List.singleton_append]
        have ih2 := ih (pre ++ [l])
        rw [hpre] at ih2
        rw [ih2]
    · have ht := taskDecompose_of_header l cap hh
      have hpre : curSectionAfter (pre ++ [l]) = jsTrim cap := by
        rw [curSectionAfter_append, hh]
      simp only [parseTodoLoop, hh, ht, nearestHeaderTasks, List.nil_append]
      have ih2 := ih (pre ++ [l])
      rw [hpre] at ih2
      exact ih2

/-- Every task produced by the checklist loop has a non-empty section
name. -/
theorem parseTodoLoop_sectionName_ne (ls : List Str) : ∀ (cur : Str),
    ∀ t ∈ parseTodoLoop ls cur, t.sectionName ≠ [] := by
  induction ls with
  | nil =>
    intro cur t ht
    simp [parseTodoLoop] at ht
  | cons l rest ih =>
    intro cur t ht
    rcases hh : headerCapture l with _ | cap
    · rcases htd : taskDecompose l with _ | sh
      · simp only [parseTodoLoop, hh, htd] at ht
        exact ih cur t ht
      · simp only [parseTodoLoop, hh, htd] at ht
        rcases List.mem_cons.mp ht with h1 | h1
        · subst h1
          show (if cur = [] then uncategorized else cur) ≠ []
          by_cases hc : cur = []
          · subst hc
            rw [if_pos rfl]
            decide
          · rw [if_neg hc]
            exact hc
        · exact ih cur t h1
    · simp only [parseTodoLoop, hh] at ht
      exact ih (jsTrim cap) t ht

/-- Membership in the Set iteration: a value appears exactly when it
occurs in the input and was not already seen. -/
theorem mem_uniqueInOrderGo (l : List Str) : ∀ (seen : List Str) (a : Str),
    a ∈ uniqueInOrderGo l seen ↔ a ∈ l ∧ a ∉ seen := by
  induction l with
  | nil =>
    intro seen a
    simp [uniqueInOrderGo]
  | cons x xs ih =>
    intro seen a
    by_cases hx : x ∈ seen
    · simp only [uniqueInOrderGo, if_pos hx, ih seen a]
      constructor
      · rintro ⟨h1, h2⟩
        exact ⟨List.mem_cons_of_mem _ h1, h2⟩
      · rintro ⟨h1, h2⟩
        rcases List.mem_cons.mp h1 with rfl | h1
        · exact absurd hx h2
        · exact ⟨h1, h2⟩
    · simp only [uniqueInOrderGo, if_neg hx]
      constructor
      · intro hmem
        rcases List.mem_cons.mp hmem with rfl | hmem
        · exact ⟨List.mem_cons_self _ _, hx⟩
        · obtain ⟨h1, h2⟩ := (ih (x :: seen) a).mp hmem
          exact ⟨List.mem_cons_of_mem _ h1, fun hc => h2 (List.mem_cons_of_mem _ hc)⟩
      · rintro ⟨h1, h2⟩
        rcases List.mem_cons.mp h1 with rfl | h1
        · exact List.mem_cons_self _ _
        · by_cases hax : a = x
          · subst hax
            exact List.mem_cons_self _ _
          · exact List.mem_cons_of_mem _
              ((ih (x :: seen) a).mpr ⟨h1, by simp [List.mem_cons, hax, h2]⟩)

/-- First-seen deduplication preserves membership. -/
theorem mem_uniqueInOrder (l : List Str) (a : Str) : a ∈ uniqueInOrder l ↔ a ∈ l := by
  rw [uniqueInOrder, mem_uniqueInOrderGo]
  simp

/-- The Set iteration yields a duplicate-free list. -/
theorem uniqueInOrderGo_nodup (l : List Str) : ∀ (seen : List Str),
    (uniqueInOrderGo l seen).Nodup := by
  induction l with
  | nil =>
    intro seen
    simp [uniqueInOrderGo]
  | cons x xs ih =>
    intro seen
    by_cases hx : x ∈ seen
    · simp only [uniqueInOrderGo, if_pos hx]
      exact ih seen
    · simp only [uniqueInOrderGo, if_neg hx]
      refine List.nodup_cons.mpr ⟨?_, ih (x :: seen)⟩
      intro hmem
      obtain ⟨_, h2⟩ := (mem_uniqueInOrderGo xs (x :: seen) x).mp hmem
      exact h2 (List.mem_cons_self _ _)

/-- First-seen deduplication yields a duplicate-free list. -/
theorem uniqueInOrder_nodup (l : List Str) : (uniqueInOrder l).Nodup :=
  uniqueInOrderGo_nodup l []

/-- First-seen deduplication yields the empty list exactly on empty
input. -/
theorem uniqueInOrder_eq_nil_iff (l : List Str) : uniqueInOrder l = [] ↔ l = [] := by
  cases l with
  | nil => simp [uniqueInOrder, uniqueInOrderGo]
  | cons x xs => simp [uniqueInOrder, uniqueInOrderGo]

/-- The Set iteration depends on the seen set only through
membership. -/
theorem uniqueInOrderGo_congr (l : List Str) : ∀ (s1 s2 : List Str),
    (∀ a, a ∈ s1 ↔ a ∈ s2) → uniqueInOrderGo l s1 = uniqueInOrderGo l s2 := by
  induction l with
  | nil =>
    intro s1 s2 _
    rfl
  | cons x xs ih =>
    intro s1 s2 hs
    by_cases hx : x ∈ s1
    · simp only [uniqueInOrderGo, if_pos hx, if_pos ((hs x).mp hx)]
      exact ih s1 s2 hs
    · have hx2 : x ∉ s2 := fun hc => hx ((hs x).mpr hc)
      simp only [uniqueInOrderGo, if_neg hx, if_neg hx2]
      rw [ih (x :: s1) (x :: s2) (fun a => by simp [List.mem_cons, hs a])]

/-- The accumulator form of the fold-based deduplication. -/
theorem foldl_dedup_acc (l : List Str) : ∀ (acc : List Str),
    l.foldl (fun acc x => if x ∈ acc then acc else acc ++ [x]) acc =
      acc ++ uniqueInOrderGo l acc := by
  induction l with
  | nil =>
    intro acc
    simp [uniqueInOrderGo]
  | cons x xs ih =>
    intro acc
    simp only [List.foldl_cons]
    by_cases hx : x ∈ acc
    · rw [if_pos hx, ih acc]
      simp only [uniqueInOrderGo, if_pos hx]
    · rw [if_neg hx, ih (acc ++ [x])]
      simp only [uniqueInOrderGo, if_neg hx]
      rw [uniqueInOrderGo_congr xs (acc ++ [x]) (x :: acc) (fun a => by simp [or_comm]),
        List.append_assoc]
      simp only [List.singleton_append]

/-- The two descriptions of first-seen deduplication agree. -/
theorem distinctFirstSeen_eq (l : List Str) : distinctFirstSeen l = uniqueInOrder l := by
  rw [distinctFirstSeen, foldl_dedup_acc, List.nil_append]
  rfl

/-- Loop invariant of the markdown parser: starting from an accumulator
whose recorded lines are non-blank, every emitted section has a
non-empty title, a non-empty content list, and only non-blank content
lines. -/
theorem parseMdLoop_invariant (ls : List Str) : ∀ (cur : DocSection),
    (∀ l ∈ cur.content, jsTrim l ≠ []) →
    ∀ sec ∈ parseMdLoop ls cur,
      sec.title ≠ [] ∧ sec.content ≠ [] ∧ ∀ l ∈ sec.content, jsTrim l ≠ [] := by
  induction ls with
  | nil =>
    intro cur hcur sec hsec
    simp only [parseMdLoop] at hsec
    split at hsec
    · rename_i hcond
      simp only [List.mem_singleton] at hsec
      subst hsec
      exact ⟨hcond.1, hcond.2, hcur⟩
    · simp at hsec
  | cons l rest ih =>
    intro cur hcur sec hsec
    rcases hh : mdHeaderMatch l with _ | ⟨lvl, cap⟩
    · simp only [parseMdLoop, hh] at hsec
      by_cases hb : jsTrim l ≠ []
      · rw [if_pos hb] at hsec
        refine ih _ ?_ sec hsec
        intro x hx
        rcases List.mem_append.mp hx with h1 | h1
        · exact hcur x h1
        · simp only [List.mem_singleton] at h1
          subst h1
          exact hb
      · rw [if_neg hb] at hsec
        exact ih cur hcur sec hsec
    · simp only [parseMdLoop, hh] at hsec
      rcases List.mem_append.mp hsec with h1 | h1
      · split at h1
        · rename_i hcond
          simp only [List.mem_singleton] at h1
          subst h1
          exact ⟨hcond.1, hcond.2, hcur⟩
        · simp at h1
      · refine ih _ ?_ sec h1
        intro x hx
        simp at hx

/-- When every line is a header line, the markdown loop starting from an
empty accumulator emits nothing. -/
theorem parseMdLoop_headers_only (ls : List Str) : ∀ (cur : DocSection),
    (∀ l ∈ ls, (mdHeaderMatch l).isSome = true) → cur.content = [] →
    parseMdLoop ls cur = [] := by
  induction ls with
  | nil =>
    intro cur _ hc
    simp [parseMdLoop, hc]
  | cons l rest ih =>
    intro cur hall hc
    rcases hh : mdHeaderMatch l with _ | ⟨lvl, cap⟩
    · exact absurd (hall l (by simp)) (by simp [hh])
    · simp only [parseMdLoop, hh]
      rw [if_neg (by simp [hc])]
      simp only [List.nil_append]
      exact ih _ (fun x hx => hall x (List.mem_cons_of_mem _ hx)) rfl

/-- The trim of a line is empty exactly when the line is all
whitespace. -/
theorem jsTrim_eq_nil_iff (l : Str) : jsTrim l = [] ↔ l.all isJsWs = true := by
  rw [jsTrim]
  constructor
  · intro h
    rw [List.reverse_eq_nil_iff] at h
    have h2 : ∀ x ∈ (l.dropWhile isJsWs).reverse, isJsWs x := List.dropWhile_eq_nil_iff.mp h
    rw [List.all_eq_true]
    intro x hx
    have hx2 : x ∈ l.takeWhile isJsWs ++ l.dropWhile isJsWs := by
      rw [List.takeWhile_append_dropWhile]
      exact hx
    rcases List.mem_append.mp hx2 with h3 | h3
    · exact List.mem_takeWhile_imp h3
    · exact h2 x (List.mem_reverse.mpr h3)
  · intro h
    have h1 : l.dropWhile isJsWs = [] :=
      List.dropWhile_eq_nil_iff.mpr (List.all_eq_true.mp h)
    rw [h1]
    rfl

/-- The emptiness test on a trimmed line computes the all-whitespace
test. -/
theorem jsTrim_isEmpty_eq (l : Str) : (jsTrim l).isEmpty = l.all isJsWs := by
  by_cases h : jsTrim l = []
  · rw [h, (jsTrim_eq_nil_iff l).mp h]
    rfl
  · have h2 : l.all isJsWs = false := by
      rcases hall : l.all isJsWs with _ | _
      · rfl
      · exact absurd ((jsTrim_eq_nil_iff l).mpr hall) h
    rcases hj : jsTrim l with _ | ⟨x, xs⟩
    · exact absurd hj h
    · rw [h2]
      rfl

/-- Claim C1: for every file content and every task-description
substring, the rewrite of updateTodoStatus changes exactly the lines
that both match the checklist-item grammar and contain the description
literally, and on each such line it replaces only the single
checkbox-marker character (position two past the leading whitespace)
with the letter x or a space, preserving every other character; every
other line passes through unchanged, and the output file is the
newline-join of the per-line rewrites. -/
theorem setTaskCompletion_rewrites_exactly_matching_lines
    (content taskDescription : Str) (completed : Bool) :
    (∀ line ∈ splitNl content, ∀ sh : TaskShape, taskDecompose line = some sh →
        jsIncludes line taskDescription = true →
        line = sh.bullet :: (sh.ws1 ++ '[' :: sh.box :: ']' :: (sh.ws2 ++ sh.rest)) ∧
        updateTodoLine taskDescription completed line =
          line.set (sh.ws1.length + 2) (if completed then 'x' else ' ')) ∧
    (∀ line ∈ splitNl content,
        taskDecompose line = none ∨ jsIncludes line taskDescription = false →
        updateTodoLine taskDescription completed line = line) ∧
    updateTodoContent taskDescription completed content =
      joinNl ((splitNl content).map (updateTodoLine taskDescription completed)) := by
  refine ⟨?_, ?_, rfl⟩
  · intro line _ sh h hinc
    exact ⟨(taskDecompose_spec line sh h).1,
      updateTodoLine_set taskDescription completed line sh h hinc⟩
  · intro line _ h
    rcases h with h | h
    · exact updateTodoLine_of_none _ _ _ h
    · exact updateTodoLine_of_not_inc _ _ _ h

/-- Witness for claim C1 at a concrete line. -/
theorem setTaskCompletion_rewrites_witness :
    updateTodoLine (("a").data) true (("- [ ] a").data) =
      (("- [ ] a").data).set 3 'x' := by
  have h := (setTaskCompletion_rewrites_exactly_matching_lines
    (("- [ ] a").data) (("a").data) true).1
  exact (h (("- [ ] a").data) (by decide)
    ⟨'-', [' '], ' ', [' '], ("a").data⟩ (by decide) (by decide)).2

/-- Claim C2: parsing the sample checklist yields the Setup section and
its two tasks in file order, and in general a line matched by the
checklist-item expression becomes a task completed exactly when the
captured marker is the letter x, with the trimmed second capture as its
description. -/
theorem parseTodoFile_checklist_roundtrip :
    parseTodoFile (("## Setup\n- [ ] write tests\n- [x] init repo\n").data) =
      { tasks := [{ description := ("write tests").data, completed := false,
                    sectionName := ("Setup").data },
                  { description := ("init repo").data, completed := true,
                    sectionName := ("Setup").data }],
        sections := [("Setup").data] } ∧
    (∀ (line : Str) (rest : List Str) (currentSection : Str) (sh : TaskShape),
        taskDecompose line = some sh →
        parseTodoLoop (line :: rest) currentSection =
          { description := jsTrim sh.rest, completed := sh.box == 'x',
            sectionName :=
              if currentSection = [] then uncategorized else currentSection } ::
            parseTodoLoop rest currentSection) := by
  constructor
  · decide
  · intro line rest currentSection sh h
    exact parseTodoLoop_cons_task line rest currentSection sh h

/-- Witness for claim C2 at a concrete line. -/
theorem parseTodoFile_roundtrip_witness :
    parseTodoLoop [("- [x] done").data] [] =
      [{ description := ("done").data, completed := true, sectionName := uncategorized }] := by
  have h := (parseTodoFile_checklist_roundtrip).2 (("- [x] done").data) [] []
    ⟨'-', [' '], 'x', [' '], ("done").data⟩ (by decide)
  rw [h]
  decide

/-- Claim C3: every section emitted by the structured-document parser
has a non-empty title and at least one non-blank content line; an input
consisting only of header lines yields zero sections and an empty
document title; and the concrete sample drops its first header. -/
theorem parseMarkdownFile_drops_empty_sections (content : Str) :
    (∀ sec ∈ (parseMarkdownFile content).sections,
        sec.title ≠ [] ∧ sec.content ≠ [] ∧ ∀ l ∈ sec.content, jsTrim l ≠ []) ∧
    ((∀ l ∈ splitNl content, (mdHeaderMatch l).isSome = true) →
        (parseMarkdownFile content).sections = [] ∧ (parseMarkdownFile content).title = []) ∧
    parseMarkdownFile (("# Empty Header\n## Next\ncontent here\n").data) =
      { sections := [{ title := ("Next").data, level := 2,
                       content := [("content here").data] }],
        title := ("Next").data,
        content := ("# Empty Header\n## Next\ncontent here\n").data } := by
  refine ⟨?_, ?_, by decide⟩
  · intro sec hsec
    exact parseMdLoop_invariant (splitNl content) _ (by intro x hx; simp at hx) sec hsec
  · intro hall
    have hempty : parseMdLoop (splitNl content) { title := [], level := 0, content := [] } = [] :=
      parseMdLoop_headers_only (splitNl content) _ hall rfl
    constructor
    · simpa [parseMarkdownFile] using hempty
    · simp [parseMarkdownFile, hempty]

/-- Witness for claim C3 at a concrete headers-only input. -/
theorem parseMarkdownFile_headers_only_witness :
    (parseMarkdownFile (("# A\n## B").data)).sections = [] ∧
    (parseMarkdownFile (("# A\n## B").data)).title = [] :=
  (parseMarkdownFile_drops_empty_sections (("# A\n## B").data)).2.1 (by decide)

/-- Counterexample to claim C4 as stated: the line of one hash mark and
two spaces is a header line whose captured text is a single space,
trimming to the empty string; yet the following task is assigned the
literal Uncategorized section, not that empty trimmed capture. -/
theorem parseTodoFile_empty_header_counterexample :
    headerCapture (("#  ").data) = some [' '] ∧
    jsTrim [' '] = [] ∧
    (parseTodoFile (("#  \n- [ ] a").data)).tasks =
      [{ description := ("a").data, completed := false,
         sectionName := ("Uncategorized").data }] ∧
    ("Uncategorized").data ≠ ([] : Str) := by
  decide

/-- Claim C4 as amended: each task is assigned the trimmed captured
text of the nearest preceding header line whenever that trimmed text is
non-empty; a task before any header line, or whose nearest preceding
header has a captured text trimming to the empty string, is assigned
the literal Uncategorized section. -/
theorem parseTodoFile_nearest_header_amended (content : Str) :
    (parseTodoFile content).tasks = nearestHeaderTasks [] (splitNl content) := by
  show parseTodoLoop (splitNl content) [] = _
  exact parseTodoLoop_eq_nearest (splitNl content) []

/-- Counterexample to claim C5 as stated: a line of two spaces and then
a hash mark has the hash mark as its first non-whitespace character,
yet it is kept as a pattern entry. -/
theorem initIgnoreRules_indented_comment_counterexample :
    initIgnoreRules (("  #x").data) = [("  #x").data] ∧
    ((("  #x").data).dropWhile isJsWs).head? = some '#' := by
  decide

/-- Claim C5 as amended: exactly the blank (all-whitespace) lines and
the lines whose first character is a hash mark are discarded; every
other line becomes a pattern entry, in the order supplied. -/
theorem initIgnoreRules_discards_blank_and_hash_amended (blob : Str) :
    initIgnoreRules blob =
      (splitNl blob).filter (fun l => !(l.all isJsWs) && !(startsWithHash l)) := by
  rw [initIgnoreRules]
  apply List.filter_congr
  intro l _
  rw [jsTrim_isEmpty_eq]

/-- Claim C6: the content rewrite of setTaskCompletion is idempotent:
applying it twice yields the same file content as applying it once. -/
theorem setTaskCompletion_idempotent (content taskDescription : Str) (completed : Bool) :
    updateTodoContent taskDescription completed
        (updateTodoContent taskDescription completed content) =
      updateTodoContent taskDescription completed content := by
  conv_lhs => rw [updateTodoContent]
  rw [splitNl_updateTodoContent, List.map_map]
  conv_rhs => rw [updateTodoContent]
  congr 1
  apply List.map_congr_left
  intro a _
  exact updateTodoLine_idem taskDescription completed a

/-- Claim C7: setTaskCompletion fails with NotFoundError whenever the
target path is ignored or absent from storage, and the store is left
untouched on that error path. -/
theorem setTaskCompletion_notFound (ign : Str → Bool) (fs : List (Str × Str))
    (filePath taskDescription : Str) (completed : Bool)
    (h : ign filePath = true ∨ lookupStore fs filePath = none) :
    updateTodoStatus ign fs filePath taskDescription completed =
      (Except.error FsError.notFoundError, fs) := by
  by_cases hig : ign filePath = true
  · simp [updateTodoStatus, hig]
  · have hlk : lookupStore fs filePath = none := by
      rcases h with h | h
      · exact absurd h hig
      · exact h
    have hig2 : ign filePath = false := by
      rcases hb : ign filePath with _ | _
      · rfl
      · exact absurd hb hig
    simp [updateTodoStatus, readFileFS, hig2, hlk]

/-- Witness for claim C7 on the empty store. -/
theorem setTaskCompletion_notFound_witness :
    updateTodoStatus (fun _ => false) [] ([] : Str) ([] : Str) true =
      (Except.error FsError.notFoundError, []) :=
  setTaskCompletion_notFound (fun _ => false) [] [] [] true (Or.inr rfl)

/-- Claim C8: the checklist parser of the filesystem module and its
duplicate draft return equal results on every input. -/
theorem parseTodoFile_draft_equivalent (content : Str) :
    parseTodoFile content = parseTodoFileDraft content := by
  simp only [parseTodoFile, parseTodoFileDraft, parseTodoLoop_eq_draft]

/-- Claim C9: every parsed task has a non-empty section name, and the
sections list is duplicate-free and equals the distinct section values
of the tasks in first-seen order; in particular it is empty exactly
when there are no tasks. -/
theorem parseTodoFile_sections_invariant (content : Str) :
    (∀ t ∈ (parseTodoFile content).tasks, t.sectionName ≠ []) ∧
    (parseTodoFile content).sections.Nodup ∧
    (parseTodoFile content).sections =
      distinctFirstSeen ((parseTodoFile content).tasks.map (·.sectionName)) ∧
    ((parseTodoFile content).sections = [] ↔ (parseTodoFile content).tasks = []) := by
  refine ⟨?_, ?_, ?_, ?_⟩
  · intro t ht
    exact parseTodoLoop_sectionName_ne (splitNl content) [] t ht
  · show (uniqueInOrder _).Nodup
    exact uniqueInOrder_nodup _
  · show uniqueInOrder _ = distinctFirstSeen _
    rw [distinctFirstSeen_eq]
    rfl
  · show uniqueInOrder _ = [] ↔ _
    rw [uniqueInOrder_eq_nil_iff, List.map_eq_nil_iff]
    exact Iff.rfl

/-- Witness for claim C9 at a concrete checklist. -/
theorem parseTodoFile_sections_witness :
    ({ description := ("a").data, completed := false,
       sectionName := uncategorized } : TodoTask).sectionName ≠ [] ∧
    (parseTodoFile (("- [ ] a").data)).sections =
      distinctFirstSeen ((parseTodoFile (("- [ ] a").data)).tasks.map (·.sectionName)) :=
  ⟨(parseTodoFile_sections_invariant (("- [ ] a").data)).1 _ (by decide),
   (parseTodoFile_sections_invariant (("- [ ] a").data)).2.2.1⟩

/-- Claim C10: on an existing, non-ignored path whose content has no
line both matching the checklist-item grammar and containing the
description, setTaskCompletion succeeds and writes back content
identical to the original. -/
theorem setTaskCompletion_no_match_noop (ign : Str → Bool) (fs : List (Str × Str))
    (filePath taskDescription content : Str) (completed : Bool)
    (h1 : ign filePath = false) (h2 : lookupStore fs filePath = some content)
    (h3 : ∀ l ∈ splitNl content,
        taskDecompose l = none ∨ jsIncludes l taskDescription = false) :
    (updateTodoStatus ign fs filePath taskDescription completed).1 = Except.ok true ∧
    lookupStore (updateTodoStatus ign fs filePath taskDescription completed).2 filePath =
      some content := by
  have hco := updateTodoContent_noop taskDescription completed content h3
  have hrun : updateTodoStatus ign fs filePath taskDescription completed =
      (Except.ok true, writeStore fs filePath content) := by
    simp [updateTodoStatus, readFileFS, writeFileFS, h1, h2, hco]
  rw [hrun]
  exact ⟨rfl, lookupStore_writeStore fs filePath content⟩

/-- Witness for claim C10 on a one-file store. -/
theorem setTaskCompletion_noop_witness :
    (updateTodoStatus (fun _ => false) [((("t").data), (("hi").data))] (("t").data)
        (("z").data) true).1 = Except.ok true ∧
    lookupStore (updateTodoStatus (fun _ => false) [((("t").data), (("hi").data))] (("t").data)
        (("z").data) true).2 (("t").data) = some (("hi").data) :=
  setTaskCompletion_no_match_noop (fun _ => false) [((("t").data), (("hi").data))]
    (("t").data) (("z").data) (("hi").data) true rfl (by decide) (by decide)

end Repobot
